import Mathlib

/-!
# Verification of the fe token-stream parser (`parser/src/parsers.rs`)

Shallow embedding of the nom-based token parser: the token data model, the
simple pair error type `(input, ErrorKind)` used throughout the repository's
tests, the nom combinators the source instantiates (`verify`, `many0`,
`many1`, `context`), and the grammar rules `parse_file`, `parse_module_stmt`,
`parse_event_def`, `parse_event_field` together with the primitive matchers.

Token slices are modelled as `List TokenInfo`; "consuming" a token returns the
tail, exactly as the Rust code returns `&input[1..]`.  A parser is a function
from a slice to `Except ParseError (remaining × output)`, mirroring nom's
`IResult` with the error type fixed at the simple `(I, ErrorKind)` instance
(the one the repository's own tests instantiate).
-/

namespace Fe

/-- Token type tags, from the tokenizer's `TokenType` enumeration. -/
inductive TokenType where
  | NAME
  | OP
  | NUMBER
  | STRING
  | INDENT
  | DEDENT
  | NEWLINE
  | ENDMARKER
  | COMMENT
  | NL
deriving DecidableEq, Repr

/-- A classified token: type tag, literal source text, and positional
metadata.  Modelled from the spec: the tokenizer's `TokenInfo` layout is not
under `src/`; the spec describes "a `type` tag, a `literal` string slice, and
positional metadata (line/column or offset span)".  The parser reads only
`typ` and `string`. -/
structure TokenInfo where
  typ : TokenType
  string : String
  span : Nat × Nat
deriving DecidableEq, Repr

/-- The nom `ErrorKind`s this grammar can produce. -/
inductive ErrorKind where
  | Eof
  | Verify
  | Many0
  | Many1
deriving DecidableEq, Repr

/-- The simple nom error type `(I, ErrorKind)`: the input slice at the failure
point plus the kind of elementary failure, as instantiated by the repository's
tests (`type SimpleError<I> = (I, ErrorKind)`). -/
structure ParseError where
  input : List TokenInfo
  kind : ErrorKind
deriving DecidableEq, Repr

/-- A token-stream slice (`TokenSlice<'a> = &'a [TokenInfo<'a>]`). -/
abbrev TokenSlice := List TokenInfo

/-- `IResult<TokenSlice, O, E>` with `E` the simple pair error. -/
abbrev TokenResult (α : Type) := Except ParseError (TokenSlice × α)

instance {α : Type} [DecidableEq α] : DecidableEq (TokenResult α) := fun a b =>
  match a, b with
  | .error x, .error y =>
    if h : x = y then .isTrue (by rw [h]) else .isFalse (by simp [h])
  | .error _, .ok _ => .isFalse (by simp)
  | .ok _, .error _ => .isFalse (by simp)
  | .ok x, .ok y =>
    if h : x = y then .isTrue (by rw [h]) else .isFalse (by simp [h])

/-- Modelled from the spec: the repository's `errors::make_error` helper
(`crate::errors` is not under `src/`) builds the failure value from the input
position and the elementary error kind. -/
def make_error {α : Type} (input : TokenSlice) (kind : ErrorKind) : TokenResult α :=
  .error ⟨input, kind⟩

/-- `one_token`: parse a single token from a token slice. -/
def one_token (input : TokenSlice) : TokenResult TokenInfo :=
  match input with
  | [] => make_error input .Eof
  | t :: rest => .ok (rest, t)

/-- nom's `verify` combinator: run the inner parser, then fail (with
`ErrorKind::Verify` at the *original* input) unless the predicate holds. -/
def verify {α : Type} (p : TokenSlice → TokenResult α) (pred : α → Bool)
    (input : TokenSlice) : TokenResult α :=
  match p input with
  | .error e => .error e
  | .ok (i, o) => if pred o then .ok (i, o) else .error ⟨input, .Verify⟩

/-- `token`: parse a token of a specific type from a token slice. -/
def token (typ : TokenType) : TokenSlice → TokenResult TokenInfo :=
  verify one_token (fun t => t.typ == typ)

/-- `name_token`: parse a NAME token. -/
def name_token : TokenSlice → TokenResult TokenInfo := token .NAME

/-- `name_string`: parse a NAME token containing a specific string. -/
def name_string (string : String) : TokenSlice → TokenResult TokenInfo :=
  verify name_token (fun t => t.string == string)

/-- `op_token`: parse an OP token. -/
def op_token : TokenSlice → TokenResult TokenInfo := token .OP

/-- `op_string`: parse an OP token containing a specific string. -/
def op_string (string : String) : TokenSlice → TokenResult TokenInfo :=
  verify op_token (fun t => t.string == string)

/-- `number_token`: parse a NUMBER token. -/
def number_token : TokenSlice → TokenResult TokenInfo := token .NUMBER

/-- `string_token`: parse a STRING token. -/
def string_token : TokenSlice → TokenResult TokenInfo := token .STRING

/-- `indent_token`: parse an INDENT token. -/
def indent_token : TokenSlice → TokenResult TokenInfo := token .INDENT

/-- `dedent_token`: parse a DEDENT token. -/
def dedent_token : TokenSlice → TokenResult TokenInfo := token .DEDENT

/-- `newline_token`: parse a grammatically significant NEWLINE token. -/
def newline_token : TokenSlice → TokenResult TokenInfo := token .NEWLINE

/-- `endmarker_token`: parse an ENDMARKER token. -/
def endmarker_token : TokenSlice → TokenResult TokenInfo := token .ENDMARKER

/-- The loop shared by nom's `many0`/`many1`: apply `p` repeatedly; stop (with
the results so far) when `p` fails; error with the given kind if `p` succeeds
without consuming (nom's infinite-loop check).  nom iterates unboundedly; the
`fuel` argument makes the recursion structural, and the development proves
that `input.length + 1` fuel is never exhausted because every successful rule
strictly consumes. -/
def manyLoop {α : Type} (fuel : Nat) (kind : ErrorKind)
    (p : TokenSlice → TokenResult α) (i : TokenSlice) : TokenResult (List α) :=
  match fuel with
  | 0 => .error ⟨i, kind⟩
  | fuel + 1 =>
    match p i with
    | .error _ => .ok (i, [])
    | .ok (i1, o) =>
      if i1 = i then .error ⟨i, kind⟩
      else
        match manyLoop fuel kind p i1 with
        | .error e => .error e
        | .ok (i2, os) => .ok (i2, o :: os)

/-- nom's `many0`: apply `p` zero or more times until it fails. -/
def many0 {α : Type} (p : TokenSlice → TokenResult α) (i : TokenSlice) :
    TokenResult (List α) :=
  manyLoop (i.length + 1) .Many0 p i

/-- nom's `many1`: apply `p` once, then zero or more times until it fails;
the first failure is propagated (for the simple pair error, `E::append` keeps
the inner error unchanged). -/
def many1 {α : Type} (p : TokenSlice → TokenResult α) (i : TokenSlice) :
    TokenResult (List α) :=
  match p i with
  | .error e => .error e
  | .ok (i1, o) =>
    match manyLoop (i1.length + 1) .Many1 p i1 with
    | .error e => .error e
    | .ok (i2, os) => .ok (i2, o :: os)

/-- nom's `context` combinator: for the simple pair error type
`(I, ErrorKind)`, `add_context` discards the label, so `context` only runs the
inner parser. -/
def context {α : Type} (_label : String) (p : TokenSlice → TokenResult α) :
    TokenSlice → TokenResult α := p

/-- AST: an event field `{ name, typ }`. -/
structure EventField where
  name : String
  typ : String
deriving DecidableEq, Repr

/-- AST: module statements; currently the single variant
`EventDef { name, fields }`. -/
inductive ModuleStmt where
  | EventDef (name : String) (fields : List EventField)
deriving DecidableEq, Repr

/-- The fields of a module statement (the `fields` of its `EventDef`). -/
def ModuleStmt.fields : ModuleStmt → List EventField
  | .EventDef _ fields => fields

/-- AST: the root `Module { body }` node. -/
structure Module where
  body : List ModuleStmt
deriving DecidableEq, Repr

/-- `parse_event_field`: NAME ":" NAME NEWLINE → `EventField`. -/
def parse_event_field (input : TokenSlice) : TokenResult EventField :=
  match name_token input with
  | .error e => .error e
  | .ok (i, name) =>
    match op_string ":" i with
    | .error e => .error e
    | .ok (i, _) =>
      match name_token i with
      | .error e => .error e
      | .ok (i, typ) =>
        match newline_token i with
        | .error e => .error e
        | .ok (i, _) => .ok (i, { name := name.string, typ := typ.string })

/-- `parse_event_def`: `"event" name ":" NEWLINE INDENT event_field+ DEDENT`
→ `ModuleStmt::EventDef`. -/
def parse_event_def (input : TokenSlice) : TokenResult ModuleStmt :=
  match name_string "event" input with
  | .error e => .error e
  | .ok (i, _) =>
    match name_token i with
    | .error e => .error e
    | .ok (i, name) =>
      match op_string ":" i with
      | .error e => .error e
      | .ok (i, _) =>
        match newline_token i with
        | .error e => .error e
        | .ok (i, _) =>
          match indent_token i with
          | .error e => .error e
          | .ok (i, _) =>
            match many1 parse_event_field i with
            | .error e => .error e
            | .ok (i, fields) =>
              match dedent_token i with
              | .error e => .error e
              | .ok (i, _) => .ok (i, .EventDef name.string fields)

/-- `parse_module_stmt`: dispatch to `parse_event_def` under the context label
"expected event definition". -/
def parse_module_stmt (input : TokenSlice) : TokenResult ModuleStmt :=
  match context "expected event definition" parse_event_def input with
  | .error e => .error e
  | .ok (i, module_stmt) => .ok (i, module_stmt)

/-- `parse_file`: leading NEWLINEs, then `module_stmt*`, then ENDMARKER →
`Module`. -/
def parse_file (input : TokenSlice) : TokenResult Module :=
  match many0 newline_token input with
  | .error e => .error e
  | .ok (i, _) =>
    match many0 parse_module_stmt i with
    | .error e => .error e
    | .ok (i, body) =>
      match endmarker_token i with
      | .error e => .error e
      | .ok (i, _) => .ok (i, { body := body })

/-- The token filter inside `get_parse_tokens`: drop NL and COMMENT tokens. -/
def parse_token_filter (tokens : List TokenInfo) : List TokenInfo :=
  tokens.filter (fun t => !(t.typ == TokenType.NL) && !(t.typ == TokenType.COMMENT))

/-- `get_parse_tokens`: tokenize, then filter out tokens not relevant to
parsing.  Modelled from the spec: `tokenize` (the lexer) is outside this
layer and not under `src/`; its successful output — "an ordered sequence of
tokens" — is abstracted as the argument, and only the filtering performed by
`get_parse_tokens` itself is modelled from the source. -/
def get_parse_tokens (tokenized : Except String (List TokenInfo)) :
    Except String (List TokenInfo) :=
  match tokenized with
  | .error e => .error e
  | .ok tokens => .ok (parse_token_filter tokens)

/-! ## Specification-side predicates used to characterize the grammar -/

/-- The token shape of a single event field: a NAME, an OP whose literal is
`":"`, a NAME, and a significant NEWLINE. -/
def IsFieldBlock (a c b nl : TokenInfo) : Prop :=
  a.typ = .NAME ∧ c.typ = .OP ∧ c.string = ":" ∧ b.typ = .NAME ∧ nl.typ = .NEWLINE

/-- `FieldBlocks m fs rest` says the slice `m` consists of zero or more
event-field token blocks (yielding, in order, the fields `fs`) followed by
`rest`. -/
inductive FieldBlocks : TokenSlice → List EventField → TokenSlice → Prop where
  | nil (rest : TokenSlice) : FieldBlocks rest [] rest
  | cons {a c b nl : TokenInfo} {t rest : TokenSlice} {fs : List EventField} :
      IsFieldBlock a c b nl →
      FieldBlocks t fs rest →
      FieldBlocks (a :: c :: b :: nl :: t) (⟨a.string, b.string⟩ :: fs) rest

/-! ## Concrete tokens for closed-instance checks -/

/-- The NAME token `event`. -/
def tkEvent : TokenInfo := ⟨.NAME, "event", (0, 5)⟩

/-- A NAME token `Greet`. -/
def tkGreet : TokenInfo := ⟨.NAME, "Greet", (6, 11)⟩

/-- The OP token `:`. -/
def tkColon : TokenInfo := ⟨.OP, ":", (11, 12)⟩

/-- A significant NEWLINE token. -/
def tkNewline : TokenInfo := ⟨.NEWLINE, "\n", (12, 13)⟩

/-- An INDENT token. -/
def tkIndent : TokenInfo := ⟨.INDENT, "    ", (13, 17)⟩

/-- A DEDENT token. -/
def tkDedent : TokenInfo := ⟨.DEDENT, "", (30, 30)⟩

/-- An ENDMARKER token. -/
def tkEndmarker : TokenInfo := ⟨.ENDMARKER, "", (30, 30)⟩

/-- A non-significant NL token (a blank line). -/
def tkNL : TokenInfo := ⟨.NL, "\n", (0, 1)⟩

/-- A COMMENT token. -/
def tkComment : TokenInfo := ⟨.COMMENT, "# hi", (0, 4)⟩

/-- A NAME token `x` (a field name). -/
def tkX : TokenInfo := ⟨.NAME, "x", (17, 18)⟩

/-- A NAME token `u8` (a field type). -/
def tkU8 : TokenInfo := ⟨.NAME, "u8", (20, 22)⟩

/-- The token stream of `event Greet:\n    x: u8\n` followed by ENDMARKER. -/
def demoStream : TokenSlice :=
  [tkEvent, tkGreet, tkColon, tkNewline, tkIndent,
   tkX, tkColon, tkU8, tkNewline, tkDedent, tkEndmarker]

/-! ## Characterizations of the primitive matchers -/

theorem one_token_ok_iff {ts i : TokenSlice} {t : TokenInfo} :
    one_token ts = .ok (i, t) ↔ ts = t :: i := by
  cases ts with
  | nil => simp [one_token, make_error]
  | cons a rest =>
    simp only [one_token]
    constructor
    · intro h
      obtain ⟨h1, h2⟩ := Prod.mk.injEq .. ▸ Except.ok.inj h
      simp_all
    · intro h
      obtain ⟨rfl, rfl⟩ := List.cons.injEq .. ▸ h
      rfl

theorem one_token_error_iff {ts : TokenSlice} {e : ParseError} :
    one_token ts = .error e ↔ ts = [] ∧ e = ⟨[], .Eof⟩ := by
  cases ts with
  | nil =>
    simp only [one_token, make_error, List.nil_eq, true_and]
    constructor
    · intro h; exact (Except.error.inj h).symm
    · intro h; rw [h]
  | cons a rest => simp [one_token]

theorem token_nil (typ : TokenType) : token typ [] = .error ⟨[], .Eof⟩ := rfl

theorem token_cons (typ : TokenType) (t : TokenInfo) (rest : TokenSlice) :
    token typ (t :: rest) =
      if t.typ = typ then .ok (rest, t) else .error ⟨t :: rest, .Verify⟩ := by
  simp only [token, verify, one_token]
  by_cases h : t.typ = typ <;> simp [h]

theorem token_ok_iff {typ : TokenType} {ts i : TokenSlice} {t : TokenInfo} :
    token typ ts = .ok (i, t) ↔ ts = t :: i ∧ t.typ = typ := by
  cases ts with
  | nil => simp [token_nil]
  | cons a rest =>
    rw [token_cons]
    by_cases h : a.typ = typ
    · simp only [h, if_pos rfl, if_true]
      constructor
      · intro hok
        obtain ⟨h1, h2⟩ := Prod.mk.injEq .. ▸ Except.ok.inj hok
        subst h2; exact ⟨by rw [h1], h⟩
      · intro ⟨hc, _⟩
        obtain ⟨rfl, rfl⟩ := List.cons.injEq .. ▸ hc
        rfl
    · simp only [if_neg h]
      constructor
      · intro hok; exact absurd hok (by simp)
      · intro ⟨hc, ht⟩
        obtain ⟨rfl, rfl⟩ := List.cons.injEq .. ▸ hc
        exact absurd ht h

theorem token_error_input {typ : TokenType} {ts : TokenSlice} {e : ParseError} :
    token typ ts = .error e → e.input = ts := by
  cases ts with
  | nil =>
    rw [token_nil]; intro h; rw [← Except.error.inj h]
  | cons a rest =>
    rw [token_cons]
    by_cases h : a.typ = typ
    · simp [h]
    · simp only [if_neg h]
      intro he; rw [← Except.error.inj he]

theorem token_error_of_typ_ne {typ : TokenType} {t : TokenInfo} {rest : TokenSlice}
    (h : t.typ ≠ typ) : token typ (t :: rest) = .error ⟨t :: rest, .Verify⟩ := by
  rw [token_cons, if_neg h]

theorem name_string_nil (s : String) : name_string s [] = .error ⟨[], .Eof⟩ := rfl

theorem name_string_cons (s : String) (t : TokenInfo) (rest : TokenSlice) :
    name_string s (t :: rest) =
      if t.typ = .NAME ∧ t.string = s then .ok (rest, t)
      else .error ⟨t :: rest, .Verify⟩ := by
  unfold name_string verify name_token
  rw [token_cons]
  by_cases h1 : t.typ = .NAME
  · by_cases h2 : t.string = s
    · simp [h1, h2]
    · simp [h1, h2]
  · simp [h1]

/-- `name_string s` succeeds iff the head token is a NAME whose literal is
exactly `s`; it consumes exactly that token. -/
theorem name_string_ok_iff {s : String} {ts i : TokenSlice} {t : TokenInfo} :
    name_string s ts = .ok (i, t) ↔ ts = t :: i ∧ t.typ = .NAME ∧ t.string = s := by
  cases ts with
  | nil => simp [name_string_nil]
  | cons a rest =>
    rw [name_string_cons]
    by_cases h : a.typ = .NAME ∧ a.string = s
    · rw [if_pos h]
      constructor
      · intro hok
        obtain ⟨h1, h2⟩ := Prod.mk.injEq .. ▸ Except.ok.inj hok
        subst h2; subst h1
        exact ⟨rfl, h⟩
      · intro ⟨hc, _⟩
        obtain ⟨rfl, rfl⟩ := List.cons.injEq .. ▸ hc
        rfl
    · rw [if_neg h]
      constructor
      · intro hok; exact absurd hok (by simp)
      · intro ⟨hc, h2, h3⟩
        obtain ⟨rfl, rfl⟩ := List.cons.injEq .. ▸ hc
        exact absurd ⟨h2, h3⟩ h

theorem name_string_error_input {s : String} {ts : TokenSlice} {e : ParseError} :
    name_string s ts = .error e → e.input = ts := by
  cases ts with
  | nil => rw [name_string_nil]; intro h; rw [← Except.error.inj h]
  | cons a rest =>
    rw [name_string_cons]
    by_cases h : a.typ = .NAME ∧ a.string = s
    · rw [if_pos h]; intro hok; exact absurd hok (by simp)
    · rw [if_neg h]; intro he; rw [← Except.error.inj he]

theorem op_string_nil (s : String) : op_string s [] = .error ⟨[], .Eof⟩ := rfl

theorem op_string_cons (s : String) (t : TokenInfo) (rest : TokenSlice) :
    op_string s (t :: rest) =
      if t.typ = .OP ∧ t.string = s then .ok (rest, t)
      else .error ⟨t :: rest, .Verify⟩ := by
  unfold op_string verify op_token
  rw [token_cons]
  by_cases h1 : t.typ = .OP
  · by_cases h2 : t.string = s
    · simp [h1, h2]
    · simp [h1, h2]
  · simp [h1]

/-- `op_string s` succeeds iff the head token is an OP whose literal is
exactly `s`; it consumes exactly that token. -/
theorem op_string_ok_iff {s : String} {ts i : TokenSlice} {t : TokenInfo} :
    op_string s ts = .ok (i, t) ↔ ts = t :: i ∧ t.typ = .OP ∧ t.string = s := by
  cases ts with
  | nil => simp [op_string_nil]
  | cons a rest =>
    rw [op_string_cons]
    by_cases h : a.typ = .OP ∧ a.string = s
    · rw [if_pos h]
      constructor
      · intro hok
        obtain ⟨h1, h2⟩ := Prod.mk.injEq .. ▸ Except.ok.inj hok
        subst h2; subst h1
        exact ⟨rfl, h⟩
      · intro ⟨hc, _⟩
        obtain ⟨rfl, rfl⟩ := List.cons.injEq .. ▸ hc
        rfl
    · rw [if_neg h]
      constructor
      · intro hok; exact absurd hok (by simp)
      · intro ⟨hc, h2, h3⟩
        obtain ⟨rfl, rfl⟩ := List.cons.injEq .. ▸ hc
        exact absurd ⟨h2, h3⟩ h

theorem op_string_error_input {s : String} {ts : TokenSlice} {e : ParseError} :
    op_string s ts = .error e → e.input = ts := by
  cases ts with
  | nil => rw [op_string_nil]; intro h; rw [← Except.error.inj h]
  | cons a rest =>
    rw [op_string_cons]
    by_cases h : a.typ = .OP ∧ a.string = s
    · rw [if_pos h]; intro hok; exact absurd hok (by simp)
    · rw [if_neg h]; intro he; rw [← Except.error.inj he]

/-! ## Characterization of `parse_event_field` -/

theorem parse_event_field_block {a c b nl : TokenInfo} {rest : TokenSlice}
    (h : IsFieldBlock a c b nl) :
    parse_event_field (a :: c :: b :: nl :: rest) =
      .ok (rest, ⟨a.string, b.string⟩) := by
  obtain ⟨ha, hc, hcs, hb, hnl⟩ := h
  have h1 : name_token (a :: c :: b :: nl :: rest) = .ok (c :: b :: nl :: rest, a) :=
    token_ok_iff.mpr ⟨rfl, ha⟩
  have h2 : op_string ":" (c :: b :: nl :: rest) = .ok (b :: nl :: rest, c) :=
    op_string_ok_iff.mpr ⟨rfl, hc, hcs⟩
  have h3 : name_token (b :: nl :: rest) = .ok (nl :: rest, b) :=
    token_ok_iff.mpr ⟨rfl, hb⟩
  have h4 : newline_token (nl :: rest) = .ok (rest, nl) :=
    token_ok_iff.mpr ⟨rfl, hnl⟩
  simp only [parse_event_field, h1, h2, h3, h4]

/-- `parse_event_field` succeeds iff the stream begins with a NAME, an OP
`":"`, a NAME, and a NEWLINE; the field's name and type are the two NAME
literals and the stream advances past the newline. -/
theorem parse_event_field_ok_iff {ts i : TokenSlice} {f : EventField} :
    parse_event_field ts = .ok (i, f) ↔
      ∃ a c b nl, ts = a :: c :: b :: nl :: i ∧ IsFieldBlock a c b nl ∧
        f = ⟨a.string, b.string⟩ := by
  constructor
  · intro h
    unfold parse_event_field at h
    split at h
    next e heq => exact absurd h (by simp)
    next i1 a heq1 =>
      split at h
      next e heq => exact absurd h (by simp)
      next i2 c heq2 =>
        split at h
        next e heq => exact absurd h (by simp)
        next i3 b heq3 =>
          split at h
          next e heq => exact absurd h (by simp)
          next i4 nl heq4 =>
            obtain ⟨hi, hf⟩ := Prod.mk.injEq .. ▸ Except.ok.inj h
            obtain ⟨hts1, ha⟩ := token_ok_iff.mp heq1
            obtain ⟨hts2, hc, hcs⟩ := op_string_ok_iff.mp heq2
            obtain ⟨hts3, hb⟩ := token_ok_iff.mp heq3
            obtain ⟨hts4, hnl⟩ := token_ok_iff.mp heq4
            refine ⟨a, c, b, nl, ?_, ⟨ha, hc, hcs, hb, hnl⟩, hf.symm⟩
            rw [hts1, hts2, hts3, hts4, hi]
  · rintro ⟨a, c, b, nl, rfl, hblock, rfl⟩
    exact parse_event_field_block hblock

/-- A stream whose head is not a NAME token cannot start an event field. -/
theorem parse_event_field_error_head {t : TokenInfo} {rest : TokenSlice}
    (h : t.typ ≠ .NAME) :
    parse_event_field (t :: rest) = .error ⟨t :: rest, .Verify⟩ := by
  have h1 : name_token (t :: rest) = .error ⟨t :: rest, .Verify⟩ :=
    token_error_of_typ_ne h
  simp only [parse_event_field, h1]

theorem parse_event_field_error_input {ts : TokenSlice} {e : ParseError} :
    parse_event_field ts = .error e → e.input <:+ ts := by
  intro h
  unfold parse_event_field at h
  split at h
  next e1 heq =>
    rw [show e = e1 from (Except.error.inj h).symm]
    rw [token_error_input heq]
  next i1 a heq1 =>
    obtain ⟨hts1, _⟩ := token_ok_iff.mp heq1
    split at h
    next e2 heq =>
      rw [show e = e2 from (Except.error.inj h).symm]
      rw [op_string_error_input heq, hts1]
      exact List.suffix_cons a i1
    next i2 c heq2 =>
      obtain ⟨hts2, _, _⟩ := op_string_ok_iff.mp heq2
      split at h
      next e3 heq =>
        rw [show e = e3 from (Except.error.inj h).symm]
        rw [token_error_input heq, hts1, hts2]
        exact (List.suffix_cons c i2).trans (List.suffix_cons a (c :: i2))
      next i3 b heq3 =>
        obtain ⟨hts3, _⟩ := token_ok_iff.mp heq3
        split at h
        next e4 heq =>
          rw [show e = e4 from (Except.error.inj h).symm]
          rw [token_error_input heq, hts1, hts2, hts3]
          exact ((List.suffix_cons b i3).trans
            (List.suffix_cons c (b :: i3))).trans (List.suffix_cons a (c :: b :: i3))
        next i4 nl heq4 => exact absurd h (by simp)

/-- Every success of `parse_event_field` consumes exactly four tokens. -/
theorem parse_event_field_length {ts i : TokenSlice} {f : EventField}
    (h : parse_event_field ts = .ok (i, f)) : ts.length = i.length + 4 := by
  obtain ⟨a, c, b, nl, rfl, -, -⟩ := parse_event_field_ok_iff.mp h
  simp

/-! ## Generic facts about the repetition loop -/

theorem manyLoop_suffix {α : Type} {p : TokenSlice → TokenResult α}
    (hp : ∀ j j' o, p j = .ok (j', o) → j' <:+ j) :
    ∀ {fuel : Nat} {kind : ErrorKind} {i i2 : TokenSlice} {os : List α},
      manyLoop fuel kind p i = .ok (i2, os) → i2 <:+ i := by
  intro fuel
  induction fuel with
  | zero => intro kind i i2 os h; exact absurd h (by simp [manyLoop])
  | succ n ih =>
    intro kind i i2 os h
    simp only [manyLoop] at h
    split at h
    next e heq =>
      obtain ⟨h1, h2⟩ := Prod.mk.injEq .. ▸ Except.ok.inj h
      subst h1
      exact List.suffix_refl _
    next i1 o heq =>
      split at h
      next hii => exact absurd h (by simp)
      next hii =>
        split at h
        next e heq2 => exact absurd h (by simp)
        next i2x osx heq2 =>
          obtain ⟨h1, h2⟩ := Prod.mk.injEq .. ▸ Except.ok.inj h
          subst h1
          exact (ih heq2).trans (hp _ _ _ heq)

theorem manyLoop_error_input {α : Type} {p : TokenSlice → TokenResult α}
    (hp : ∀ j j' o, p j = .ok (j', o) → j' <:+ j) :
    ∀ {fuel : Nat} {kind : ErrorKind} {i : TokenSlice} {e : ParseError},
      manyLoop fuel kind p i = .error e → e.input <:+ i := by
  intro fuel
  induction fuel with
  | zero =>
    intro kind i e h
    simp only [manyLoop] at h
    cases Except.error.inj h
    exact List.suffix_refl _
  | succ n ih =>
    intro kind i e h
    simp only [manyLoop] at h
    split at h
    next e1 heq => exact absurd h (by simp)
    next i1 o heq =>
      split at h
      next hii =>
        cases Except.error.inj h
        exact List.suffix_refl _
      next hii =>
        split at h
        next e1 heq2 =>
          cases Except.error.inj h
          exact (ih heq2).trans (hp _ _ _ heq)
        next i2x osx heq2 => exact absurd h (by simp)

theorem manyLoop_ok_of_consuming {α : Type} {p : TokenSlice → TokenResult α}
    (hp : ∀ j j' o, p j = .ok (j', o) → j'.length < j.length) :
    ∀ {fuel : Nat} {kind : ErrorKind} {i : TokenSlice}, i.length < fuel →
      ∃ i2 os, manyLoop fuel kind p i = .ok (i2, os) := by
  intro fuel
  induction fuel with
  | zero => intro kind i h; omega
  | succ n ih =>
    intro kind i hlen
    cases hpi : p i with
    | error e => exact ⟨i, [], by simp only [manyLoop, hpi]⟩
    | ok p1 =>
      obtain ⟨i1, o⟩ := p1
      have hlt : i1.length < i.length := hp _ _ _ hpi
      have hne : ¬ i1 = i := fun he => by rw [he] at hlt; omega
      obtain ⟨i2, os, hrec⟩ := @ih kind i1 (show i1.length < n by omega)
      refine ⟨i2, o :: os, ?_⟩
      simp only [manyLoop, hpi, if_neg hne, hrec]

theorem manyLoop_fuel_irrel {α : Type} {p : TokenSlice → TokenResult α}
    (hp : ∀ j j' o, p j = .ok (j', o) → j'.length < j.length) :
    ∀ {n m : Nat} {kind : ErrorKind} {i : TokenSlice},
      i.length < n → i.length < m →
      manyLoop n kind p i = manyLoop m kind p i := by
  intro n
  induction n with
  | zero => intro m kind i hn hm; omega
  | succ n ih =>
    intro m kind i hn hm
    cases m with
    | zero => omega
    | succ m =>
      cases hpi : p i with
      | error e => simp only [manyLoop, hpi]
      | ok p1 =>
        obtain ⟨i1, o⟩ := p1
        have hlt : i1.length < i.length := hp _ _ _ hpi
        by_cases hii : i1 = i
        · simp only [manyLoop, hpi, if_pos hii]
        · have h1 : i1.length < n := by omega
          have h2 : i1.length < m := by omega
          simp only [manyLoop, hpi, if_neg hii, @ih m kind i1 h1 h2]

theorem manyLoop_forall {α : Type} {p : TokenSlice → TokenResult α}
    {Q : α → Prop} (hp : ∀ j j' o, p j = .ok (j', o) → Q o) :
    ∀ {fuel : Nat} {kind : ErrorKind} {i i2 : TokenSlice} {os : List α},
      manyLoop fuel kind p i = .ok (i2, os) → ∀ o ∈ os, Q o := by
  intro fuel
  induction fuel with
  | zero => intro kind i i2 os h; exact absurd h (by simp [manyLoop])
  | succ n ih =>
    intro kind i i2 os h
    simp only [manyLoop] at h
    split at h
    next e heq =>
      obtain ⟨h1, h2⟩ := Prod.mk.injEq .. ▸ Except.ok.inj h
      subst h2
      intro o ho
      exact absurd ho (by simp)
    next i1 o heq =>
      split at h
      next hii => exact absurd h (by simp)
      next hii =>
        split at h
        next e heq2 => exact absurd h (by simp)
        next i2x osx heq2 =>
          obtain ⟨h1, h2⟩ := Prod.mk.injEq .. ▸ Except.ok.inj h
          subst h2
          intro o2 ho2
          rcases List.mem_cons.mp ho2 with h | h
          · subst h; exact hp _ _ _ heq
          · exact ih heq2 _ h

/-! ## Field-block sequences and `many1 parse_event_field` -/

theorem FieldBlocks.decomp {m : TokenSlice} {fs : List EventField}
    {r : TokenSlice} (h : FieldBlocks m fs r) :
    ∃ b, m = b ++ r ∧ b.length = 4 * fs.length ∧
      ∀ r', FieldBlocks (b ++ r') fs r' := by
  induction h with
  | nil rest => exact ⟨[], rfl, rfl, fun r' => FieldBlocks.nil r'⟩
  | cons hblk htail ih =>
    rename_i a c b2 nl t rest fs2
    obtain ⟨bk, htEq, hlen, hall⟩ := ih
    refine ⟨a :: c :: b2 :: nl :: bk, ?_, ?_, ?_⟩
    · rw [htEq]; rfl
    · simp only [List.length_cons, hlen]
      omega
    · intro r'
      exact FieldBlocks.cons hblk (hall r')

theorem manyLoop_fieldBlocks :
    ∀ {m : TokenSlice} {fs : List EventField} {r : TokenSlice},
      FieldBlocks m fs r → (∃ e, parse_event_field r = .error e) →
      ∀ {fuel : Nat} {kind : ErrorKind}, fs.length < fuel →
        manyLoop fuel kind parse_event_field m = .ok (r, fs) := by
  intro m fs r hfb
  induction hfb with
  | nil rest =>
    intro hstop fuel kind hf
    obtain ⟨e, he⟩ := hstop
    cases fuel with
    | zero => omega
    | succ n => simp only [manyLoop, he]
  | cons hblk htail ih =>
    intro hstop fuel kind hf
    cases fuel with
    | zero => omega
    | succ n =>
      rename_i a c b nl t rest fs2
      have hpe := @parse_event_field_block a c b nl t hblk
      have hne : ¬ t = a :: c :: b :: nl :: t := fun he => by
        have := congrArg List.length he
        simp only [List.length_cons] at this
        omega
      have hrec := @ih hstop n kind (show fs2.length < n by
        simp only [List.length_cons] at hf
        omega)
      simp only [manyLoop, hpe, if_neg hne, hrec]

theorem manyLoop_fieldBlocks_sound :
    ∀ {fuel : Nat} {kind : ErrorKind} {m i2 : TokenSlice} {fs : List EventField},
      manyLoop fuel kind parse_event_field m = .ok (i2, fs) →
      FieldBlocks m fs i2 ∧ ∃ e, parse_event_field i2 = .error e := by
  intro fuel
  induction fuel with
  | zero => intro kind m i2 fs h; exact absurd h (by simp [manyLoop])
  | succ n ih =>
    intro kind m i2 fs h
    simp only [manyLoop] at h
    split at h
    next e heq =>
      obtain ⟨h1, h2⟩ := Prod.mk.injEq .. ▸ Except.ok.inj h
      subst h1; subst h2
      exact ⟨FieldBlocks.nil _, e, heq⟩
    next i1 o heq =>
      split at h
      next hii => exact absurd h (by simp)
      next hii =>
        split at h
        next e heq2 => exact absurd h (by simp)
        next i2x osx heq2 =>
          obtain ⟨h1, h2⟩ := Prod.mk.injEq .. ▸ Except.ok.inj h
          subst h1; subst h2
          obtain ⟨hfb, hstop⟩ := ih heq2
          obtain ⟨a, c, b, nl, rfl, hblk, rfl⟩ := parse_event_field_ok_iff.mp heq
          exact ⟨FieldBlocks.cons hblk hfb, hstop⟩

/-- `many1 parse_event_field` succeeds iff the stream starts with one or more
event-field blocks; it consumes exactly those blocks (stopping where a field
can no longer be parsed) and yields the fields in order. -/
theorem many1_fields_ok_iff {m i2 : TokenSlice} {fs : List EventField} :
    many1 parse_event_field m = .ok (i2, fs) ↔
      FieldBlocks m fs i2 ∧ fs ≠ [] ∧ ∃ e, parse_event_field i2 = .error e := by
  constructor
  · intro h
    unfold many1 at h
    split at h
    next e heq => exact absurd h (by simp)
    next i1 o heq =>
      split at h
      next e heq2 => exact absurd h (by simp)
      next i2x osx heq2 =>
        obtain ⟨h1, h2⟩ := Prod.mk.injEq .. ▸ Except.ok.inj h
        subst h1; subst h2
        obtain ⟨hfb, hstop⟩ := manyLoop_fieldBlocks_sound heq2
        obtain ⟨a, c, b, nl, rfl, hblk, rfl⟩ := parse_event_field_ok_iff.mp heq
        exact ⟨FieldBlocks.cons hblk hfb, by simp, hstop⟩
  · rintro ⟨hfb, hne, hstop⟩
    cases hfb with
    | nil rest => exact absurd rfl hne
    | cons hblk htail =>
      rename_i a c b nl t fs2
      have hpe := @parse_event_field_block a c b nl t hblk
      have hlen : fs2.length < t.length + 1 := by
        obtain ⟨bk, htEq, hbl, -⟩ := FieldBlocks.decomp htail
        rw [htEq]
        simp only [List.length_append]
        omega
      have hrec := @manyLoop_fieldBlocks t fs2 i2 htail hstop (t.length + 1)
        ErrorKind.Many1 hlen
      simp only [many1, hpe, hrec]

theorem many1_error_input {α : Type} {p : TokenSlice → TokenResult α}
    (hps : ∀ j j' o, p j = .ok (j', o) → j' <:+ j)
    (hpe : ∀ j e, p j = .error e → e.input <:+ j) :
    ∀ {i : TokenSlice} {e : ParseError},
      many1 p i = .error e → e.input <:+ i := by
  intro i e h
  unfold many1 at h
  split at h
  next e1 heq =>
    cases Except.error.inj h
    exact hpe _ _ heq
  next i1 o heq =>
    split at h
    next e1 heq2 =>
      cases Except.error.inj h
      exact (manyLoop_error_input hps heq2).trans (hps _ _ _ heq)
    next i2x osx heq2 => exact absurd h (by simp)

/-! ## Characterization of `parse_event_def` -/

theorem parse_event_field_suffix :
    ∀ j j' o, parse_event_field j = .ok (j', o) → j' <:+ j := by
  intro j j' o h
  obtain ⟨a, c, b, nl, rfl, -, -⟩ := parse_event_field_ok_iff.mp h
  exact ⟨[a, c, b, nl], rfl⟩

theorem parse_event_field_consumes :
    ∀ j j' o, parse_event_field j = .ok (j', o) → j'.length < j.length := by
  intro j j' o h
  have := parse_event_field_length h
  omega

/-- `parse_event_def` succeeds iff the stream begins with the NAME `event`,
a NAME (the event's name), the OP `":"`, a NEWLINE, an INDENT, one or more
event-field blocks, and a DEDENT; the result is an `EventDef` carrying the
name literal and the fields in order, and the stream advances past the
dedent. -/
theorem parse_event_def_ok_iff {ts i : TokenSlice} {stmt : ModuleStmt} :
    parse_event_def ts = .ok (i, stmt) ↔
      ∃ ev n c nl ind mid ded fs,
        ts = ev :: n :: c :: nl :: ind :: mid ∧
        ev.typ = .NAME ∧ ev.string = "event" ∧ n.typ = .NAME ∧
        c.typ = .OP ∧ c.string = ":" ∧ nl.typ = .NEWLINE ∧ ind.typ = .INDENT ∧
        ded.typ = .DEDENT ∧ FieldBlocks mid fs (ded :: i) ∧ fs ≠ [] ∧
        stmt = .EventDef n.string fs := by
  constructor
  · intro h
    unfold parse_event_def at h
    split at h
    next e heq => exact absurd h (by simp)
    next i1 ev heq1 =>
      split at h
      next e heq => exact absurd h (by simp)
      next i2 n heq2 =>
        split at h
        next e heq => exact absurd h (by simp)
        next i3 c heq3 =>
          split at h
          next e heq => exact absurd h (by simp)
          next i4 nl heq4 =>
            split at h
            next e heq => exact absurd h (by simp)
            next i5 ind heq5 =>
              split at h
              next e heq => exact absurd h (by simp)
              next i6 fs heq6 =>
                split at h
                next e heq => exact absurd h (by simp)
                next i7 ded heq7 =>
                  obtain ⟨h1, h2⟩ := Prod.mk.injEq .. ▸ Except.ok.inj h
                  subst h1
                  obtain ⟨hts1, hevt, hevs⟩ := name_string_ok_iff.mp heq1
                  obtain ⟨hts2, hn⟩ := token_ok_iff.mp heq2
                  obtain ⟨hts3, hct, hcs⟩ := op_string_ok_iff.mp heq3
                  obtain ⟨hts4, hnl⟩ := token_ok_iff.mp heq4
                  obtain ⟨hts5, hind⟩ := token_ok_iff.mp heq5
                  obtain ⟨hfb, hfne, -⟩ := many1_fields_ok_iff.mp heq6
                  obtain ⟨hts7, hded⟩ := token_ok_iff.mp heq7
                  refine ⟨ev, n, c, nl, ind, i5, ded, fs, ?_, hevt, hevs, hn,
                    hct, hcs, hnl, hind, hded, ?_, hfne, h2.symm⟩
                  · rw [hts1, hts2, hts3, hts4, hts5]
                  · rw [← hts7]; exact hfb
  · rintro ⟨ev, n, c, nl, ind, mid, ded, fs, rfl, hevt, hevs, hn, hct, hcs,
      hnl, hind, hded, hfb, hfne, rfl⟩
    have h1 : name_string "event" (ev :: n :: c :: nl :: ind :: mid) =
        .ok (n :: c :: nl :: ind :: mid, ev) :=
      name_string_ok_iff.mpr ⟨rfl, hevt, hevs⟩
    have h2 : name_token (n :: c :: nl :: ind :: mid) =
        .ok (c :: nl :: ind :: mid, n) := token_ok_iff.mpr ⟨rfl, hn⟩
    have h3 : op_string ":" (c :: nl :: ind :: mid) = .ok (nl :: ind :: mid, c) :=
      op_string_ok_iff.mpr ⟨rfl, hct, hcs⟩
    have h4 : newline_token (nl :: ind :: mid) = .ok (ind :: mid, nl) :=
      token_ok_iff.mpr ⟨rfl, hnl⟩
    have h5 : indent_token (ind :: mid) = .ok (mid, ind) :=
      token_ok_iff.mpr ⟨rfl, hind⟩
    have hstop : ∃ e, parse_event_field (ded :: i) = .error e :=
      ⟨_, parse_event_field_error_head (by rw [hded]; decide)⟩
    have h6 : many1 parse_event_field mid = .ok (ded :: i, fs) :=
      many1_fields_ok_iff.mpr ⟨hfb, hfne, hstop⟩
    have h7 : dedent_token (ded :: i) = .ok (i, ded) := token_ok_iff.mpr ⟨rfl, hded⟩
    simp only [parse_event_def, h1, h2, h3, h4, h5, h6, h7]

theorem parse_event_def_suffix :
    ∀ j j' o, parse_event_def j = .ok (j', o) → j' <:+ j := by
  intro j j' o h
  obtain ⟨ev, n, c, nl, ind, mid, ded, fs, rfl, -, -, -, -, -, -, -, -, hfb, -, -⟩ :=
    parse_event_def_ok_iff.mp h
  obtain ⟨bk, rfl, -, -⟩ := FieldBlocks.decomp hfb
  exact ⟨ev :: n :: c :: nl :: ind :: (bk ++ [ded]), by simp⟩

theorem parse_event_def_consumes :
    ∀ j j' o, parse_event_def j = .ok (j', o) → j'.length < j.length := by
  intro j j' o h
  obtain ⟨ev, n, c, nl, ind, mid, ded, fs, rfl, -, -, -, -, -, -, -, -, hfb, -, -⟩ :=
    parse_event_def_ok_iff.mp h
  obtain ⟨bk, rfl, -, -⟩ := FieldBlocks.decomp hfb
  simp only [List.length_cons, List.length_append]
  omega

/-- `parse_module_stmt` behaves exactly as `parse_event_def`: the context
label does not alter the simple pair error. -/
theorem parse_module_stmt_eq (ts : TokenSlice) :
    parse_module_stmt ts = parse_event_def ts := by
  unfold parse_module_stmt context
  cases h : parse_event_def ts with
  | error e => rfl
  | ok p =>
    obtain ⟨i, m⟩ := p
    rfl

theorem parse_module_stmt_suffix :
    ∀ j j' o, parse_module_stmt j = .ok (j', o) → j' <:+ j := by
  intro j j' o h
  rw [parse_module_stmt_eq] at h
  exact parse_event_def_suffix _ _ _ h

theorem parse_module_stmt_consumes :
    ∀ j j' o, parse_module_stmt j = .ok (j', o) → j'.length < j.length := by
  intro j j' o h
  rw [parse_module_stmt_eq] at h
  exact parse_event_def_consumes _ _ _ h

theorem parse_event_def_error_input {ts : TokenSlice} {e : ParseError} :
    parse_event_def ts = .error e → e.input <:+ ts := by
  intro h
  unfold parse_event_def at h
  split at h
  next e1 heq =>
    cases Except.error.inj h
    rw [name_string_error_input heq]
  next i1 ev heq1 =>
    obtain ⟨hts1, -, -⟩ := name_string_ok_iff.mp heq1
    have s1 : i1 <:+ ts := by rw [hts1]; exact List.suffix_cons ev i1
    split at h
    next e1 heq =>
      cases Except.error.inj h
      rw [token_error_input heq]
      exact s1
    next i2 n heq2 =>
      obtain ⟨hts2, -⟩ := token_ok_iff.mp heq2
      have s2 : i2 <:+ ts := by
        refine List.IsSuffix.trans ?_ s1
        rw [hts2]; exact List.suffix_cons n i2
      split at h
      next e1 heq =>
        cases Except.error.inj h
        rw [op_string_error_input heq]
        exact s2
      next i3 c heq3 =>
        obtain ⟨hts3, -, -⟩ := op_string_ok_iff.mp heq3
        have s3 : i3 <:+ ts := by
          refine List.IsSuffix.trans ?_ s2
          rw [hts3]; exact List.suffix_cons c i3
        split at h
        next e1 heq =>
          cases Except.error.inj h
          rw [token_error_input heq]
          exact s3
        next i4 nl heq4 =>
          obtain ⟨hts4, -⟩ := token_ok_iff.mp heq4
          have s4 : i4 <:+ ts := by
            refine List.IsSuffix.trans ?_ s3
            rw [hts4]; exact List.suffix_cons nl i4
          split at h
          next e1 heq =>
            cases Except.error.inj h
            rw [token_error_input heq]
            exact s4
          next i5 ind heq5 =>
            obtain ⟨hts5, -⟩ := token_ok_iff.mp heq5
            have s5 : i5 <:+ ts := by
              refine List.IsSuffix.trans ?_ s4
              rw [hts5]; exact List.suffix_cons ind i5
            split at h
            next e1 heq =>
              cases Except.error.inj h
              exact (many1_error_input parse_event_field_suffix
                (fun j ex hx => parse_event_field_error_input hx) heq).trans s5
            next i6 fs heq6 =>
              obtain ⟨hfb, -, -⟩ := many1_fields_ok_iff.mp heq6
              have s6 : i6 <:+ ts := by
                refine List.IsSuffix.trans ?_ s5
                obtain ⟨bk, hEq, -, -⟩ := FieldBlocks.decomp hfb
                exact ⟨bk, hEq.symm⟩
              split at h
              next e1 heq =>
                cases Except.error.inj h
                rw [token_error_input heq]
                exact s6
              next i7 ded heq7 => exact absurd h (by simp)

theorem parse_module_stmt_error_input {ts : TokenSlice} {e : ParseError} :
    parse_module_stmt ts = .error e → e.input <:+ ts := by
  rw [parse_module_stmt_eq]
  exact parse_event_def_error_input

/-- An event definition whose result is an `EventDef` always has at least one
field. -/
theorem parse_event_def_fields_nonempty {ts i : TokenSlice} {name : String}
    {fields : List EventField}
    (h : parse_event_def ts = .ok (i, .EventDef name fields)) : fields ≠ [] := by
  obtain ⟨ev, n, c, nl, ind, mid, ded, fs, -, -, -, -, -, -, -, -, -, -, hfne, hstmt⟩ :=
    parse_event_def_ok_iff.mp h
  have hinj := ModuleStmt.EventDef.inj hstmt
  rw [hinj.2]
  exact hfne

/-! ## The leading-newline loop -/

theorem newline_token_consumes :
    ∀ j j' o, newline_token j = .ok (j', o) → j'.length < j.length := by
  intro j j' o h
  obtain ⟨rfl, -⟩ := token_ok_iff.mp h
  simp only [List.length_cons]
  omega

theorem newline_token_suffix :
    ∀ j j' o, newline_token j = .ok (j', o) → j' <:+ j := by
  intro j j' o h
  obtain ⟨rfl, -⟩ := token_ok_iff.mp h
  exact List.suffix_cons o j'

theorem manyLoop_newlines :
    ∀ {ns : List TokenInfo}, (∀ t ∈ ns, t.typ = .NEWLINE) →
      ∀ {r : TokenSlice},
        (r = [] ∨ ∃ h0 t0, r = h0 :: t0 ∧ h0.typ ≠ .NEWLINE) →
      ∀ {fuel : Nat} {kind : ErrorKind}, ns.length < fuel →
        manyLoop fuel kind newline_token (ns ++ r) = .ok (r, ns) := by
  intro ns
  induction ns with
  | nil =>
    intro hall r hstop fuel kind hf
    cases fuel with
    | zero => omega
    | succ n =>
      rcases hstop with rfl | ⟨h0, t0, rfl, hh⟩
      · have hnil : newline_token ([] : TokenSlice) = .error ⟨[], .Eof⟩ := rfl
        simp only [List.nil_append, manyLoop, hnil]
      · have herr : newline_token (h0 :: t0) = .error ⟨h0 :: t0, .Verify⟩ :=
          token_error_of_typ_ne hh
        simp only [List.nil_append, manyLoop, herr]
  | cons a ns ih =>
    intro hall r hstop fuel kind hf
    cases fuel with
    | zero => omega
    | succ n =>
      have ha : a.typ = .NEWLINE := hall a (by simp)
      have h1 : newline_token (a :: (ns ++ r)) = .ok (ns ++ r, a) :=
        token_ok_iff.mpr ⟨rfl, ha⟩
      have hne : ¬ (ns ++ r) = a :: (ns ++ r) := fun he => by
        have := congrArg List.length he
        simp only [List.length_cons] at this
        omega
      have hrec := @ih (fun t ht => hall t (List.mem_cons_of_mem a ht)) r hstop n
        kind (show ns.length < n by
          simp only [List.length_cons] at hf
          omega)
      simp only [List.cons_append, manyLoop, h1, if_neg hne, hrec]

theorem manyLoop_newlines_sound :
    ∀ {fuel : Nat} {kind : ErrorKind} {i r : TokenSlice} {os : List TokenInfo},
      manyLoop fuel kind newline_token i = .ok (r, os) →
      i = os ++ r ∧ (∀ t ∈ os, t.typ = .NEWLINE) ∧
        (r = [] ∨ ∃ h0 t0, r = h0 :: t0 ∧ h0.typ ≠ .NEWLINE) := by
  intro fuel
  induction fuel with
  | zero => intro kind i r os h; exact absurd h (by simp [manyLoop])
  | succ n ih =>
    intro kind i r os h
    simp only [manyLoop] at h
    split at h
    next e heq =>
      obtain ⟨h1, h2⟩ := Prod.mk.injEq .. ▸ Except.ok.inj h
      subst h1; subst h2
      refine ⟨rfl, by simp, ?_⟩
      cases i with
      | nil => exact Or.inl rfl
      | cons h0 t0 =>
        refine Or.inr ⟨h0, t0, rfl, fun hty => ?_⟩
        unfold newline_token at heq
        rw [token_cons, if_pos hty] at heq
        exact absurd heq (by simp)
    next i1 o heq =>
      split at h
      next hii => exact absurd h (by simp)
      next hii =>
        split at h
        next e heq2 => exact absurd h (by simp)
        next i2x osx heq2 =>
          obtain ⟨h1, h2⟩ := Prod.mk.injEq .. ▸ Except.ok.inj h
          subst h1; subst h2
          obtain ⟨hdec, hall, hstop⟩ := ih heq2
          obtain ⟨hi, hty⟩ := token_ok_iff.mp heq
          refine ⟨?_, ?_, hstop⟩
          · rw [hi, hdec, List.cons_append]
          · intro t ht
            rcases List.mem_cons.mp ht with rfl | hmem
            · exact hty
            · exact hall t hmem

/-! ## Suffix bookkeeping around the final ENDMARKER -/

theorem suffix_of_append_singleton {l q : TokenSlice} {em : TokenInfo}
    (h : l <:+ q ++ [em]) (hne : l ≠ []) :
    ∃ q1, l = q1 ++ [em] ∧ q1 <:+ q := by
  obtain ⟨pre, hpre⟩ := h
  have hrev := congrArg List.reverse hpre
  simp only [List.reverse_append, List.reverse_cons, List.reverse_nil,
    List.nil_append] at hrev
  cases hl : l.reverse with
  | nil =>
    refine absurd ?_ hne
    have := congrArg List.reverse hl
    simpa using this
  | cons x xs =>
    rw [hl] at hrev
    simp only [List.cons_append] at hrev
    obtain ⟨hx, hxs⟩ := List.cons.injEq .. ▸ hrev
    refine ⟨xs.reverse, ?_, ⟨pre, ?_⟩⟩
    · have hll : l = xs.reverse ++ [x] := by
        have := congrArg List.reverse hl
        simpa using this
      rw [hll, hx]
    · have := congrArg List.reverse hxs
      simpa using this

/-! ## Extension: tokens after the ENDMARKER do not affect the parse -/

theorem parse_event_def_extend {c r r' : TokenSlice} {o : ModuleStmt}
    (h : parse_event_def (c ++ r) = .ok (r, o)) :
    parse_event_def (c ++ r') = .ok (r', o) := by
  obtain ⟨ev, n, cc, nl, ind, mid, ded, fs, hEq, hevt, hevs, hn, hct, hcs,
    hnl, hind, hded, hfb, hfne, rfl⟩ := parse_event_def_ok_iff.mp h
  obtain ⟨bk, hmid, hbl, hall⟩ := FieldBlocks.decomp hfb
  have hkey : c ++ r = (ev :: n :: cc :: nl :: ind :: (bk ++ [ded])) ++ r := by
    rw [hEq, hmid]
    simp
  have hc : c = ev :: n :: cc :: nl :: ind :: (bk ++ [ded]) :=
    List.append_cancel_right hkey
  apply parse_event_def_ok_iff.mpr
  refine ⟨ev, n, cc, nl, ind, bk ++ ded :: r', ded, fs, ?_, hevt, hevs, hn,
    hct, hcs, hnl, hind, hded, ?_, hfne, rfl⟩
  · rw [hc]
    simp
  · exact hall (ded :: r')

/-- A stream whose head token is not a NAME cannot start a module statement. -/
theorem parse_module_stmt_error_head {t : TokenInfo} {rest : TokenSlice}
    (h : t.typ ≠ .NAME) :
    parse_module_stmt (t :: rest) = .error ⟨t :: rest, .Verify⟩ := by
  rw [parse_module_stmt_eq]
  have h2 : name_string "event" (t :: rest) = .error ⟨t :: rest, .Verify⟩ := by
    rw [name_string_cons, if_neg]
    rintro ⟨hty, -⟩
    exact h hty
  simp only [parse_event_def, h2]

theorem manyLoop_stmts_extend {em : TokenInfo} (hem : em.typ = .ENDMARKER) :
    ∀ {fuel : Nat} {q : TokenSlice} {os : List ModuleStmt},
      manyLoop fuel .Many0 parse_module_stmt (q ++ [em]) = .ok ([em], os) →
      ∀ s : TokenSlice,
        manyLoop fuel .Many0 parse_module_stmt (q ++ em :: s) = .ok (em :: s, os) := by
  intro fuel
  induction fuel with
  | zero => intro q os h s; exact absurd h (by simp [manyLoop])
  | succ n ih =>
    intro q os h s
    simp only [manyLoop] at h
    split at h
    next e heq =>
      obtain ⟨h1, h2⟩ := Prod.mk.injEq .. ▸ Except.ok.inj h
      have hq : q = [] := by
        cases q with
        | nil => rfl
        | cons a t =>
          have := congrArg List.length h1
          simp only [List.length_append, List.length_cons, List.length_nil] at this
          omega
      subst hq
      subst h2
      have hfail : parse_module_stmt (em :: s) = .error ⟨em :: s, .Verify⟩ :=
        parse_module_stmt_error_head (by rw [hem]; simp)
      simp only [List.nil_append, manyLoop, hfail]
    next i1 o heq =>
      split at h
      next hii => exact absurd h (by simp)
      next hii =>
        split at h
        next e heq2 => exact absurd h (by simp)
        next i2x osx heq2 =>
          obtain ⟨h1, h2⟩ := Prod.mk.injEq .. ▸ Except.ok.inj h
          subst h1
          subst h2
          have hsuf : i1 <:+ q ++ [em] := parse_module_stmt_suffix _ _ _ heq
          have hemsuf : [em] <:+ i1 := manyLoop_suffix parse_module_stmt_suffix heq2
          have hne1 : i1 ≠ [] := by
            intro he
            rw [he] at hemsuf
            obtain ⟨t2, ht2⟩ := hemsuf
            simp at ht2
          obtain ⟨q1, rfl, hq1⟩ := suffix_of_append_singleton hsuf hne1
          obtain ⟨cpre, hcpre⟩ := hq1
          have hlen : q1.length < q.length := by
            have := parse_module_stmt_consumes _ _ _ heq
            simp only [List.length_append, List.length_cons, List.length_nil] at this
            omega
          have heqx : parse_module_stmt (q ++ em :: s) = .ok (q1 ++ em :: s, o) := by
            rw [parse_module_stmt_eq] at heq ⊢
            rw [show q ++ [em] = cpre ++ (q1 ++ [em]) from by rw [← hcpre]; simp] at heq
            have hext := @parse_event_def_extend cpre (q1 ++ [em]) (q1 ++ em :: s) o heq
            rw [show cpre ++ (q1 ++ em :: s) = q ++ em :: s from by
              rw [← hcpre]; simp] at hext
            exact hext
          have hne2 : ¬ (q1 ++ em :: s) = (q ++ em :: s) := fun he => by
            have := congrArg List.length he
            simp only [List.length_append, List.length_cons] at this
            omega
          have hrec := ih heq2 s
          simp only [manyLoop, heqx, if_neg hne2, hrec]

/-! ## `parse_file`: structure of successes and failures -/

theorem parse_file_empty : parse_file ([] : TokenSlice) = .error ⟨[], .Eof⟩ := rfl

theorem parse_file_single_endmarker {em : TokenInfo} (hem : em.typ = .ENDMARKER) :
    parse_file [em] = .ok ([], ⟨[]⟩) := by
  have h1 : newline_token [em] = .error ⟨[em], .Verify⟩ :=
    token_error_of_typ_ne (by rw [hem]; simp)
  have h4 : parse_module_stmt [em] = .error ⟨[em], .Verify⟩ :=
    parse_module_stmt_error_head (by rw [hem]; simp)
  have h5 : endmarker_token [em] = .ok ([], em) := token_ok_iff.mpr ⟨rfl, hem⟩
  simp only [parse_file, many0, List.length_cons, List.length_nil, manyLoop,
    h1, h4, h5]

theorem parse_file_consumes :
    ∀ ts i m, parse_file ts = .ok (i, m) → i.length < ts.length := by
  intro ts i m h
  unfold parse_file many0 at h
  split at h
  next e heq => exact absurd h (by simp)
  next iA osA heqA =>
    split at h
    next e heq => exact absurd h (by simp)
    next iB osB heqB =>
      split at h
      next e heq => exact absurd h (by simp)
      next iC emt heqC =>
        obtain ⟨h1, h2⟩ := Prod.mk.injEq .. ▸ Except.ok.inj h
        subst h1
        obtain ⟨hiB, -⟩ := token_ok_iff.mp heqC
        obtain ⟨preA, hpreA⟩ := manyLoop_suffix newline_token_suffix heqA
        obtain ⟨preB, hpreB⟩ := manyLoop_suffix parse_module_stmt_suffix heqB
        have l1 := congrArg List.length hpreA
        have l2 := congrArg List.length hpreB
        have l3 := congrArg List.length hiB
        simp only [List.length_append, List.length_cons] at l1 l2 l3
        omega

theorem parse_file_suffix :
    ∀ ts i m, parse_file ts = .ok (i, m) → i <:+ ts := by
  intro ts i m h
  unfold parse_file many0 at h
  split at h
  next e heq => exact absurd h (by simp)
  next iA osA heqA =>
    split at h
    next e heq => exact absurd h (by simp)
    next iB osB heqB =>
      split at h
      next e heq => exact absurd h (by simp)
      next iC emt heqC =>
        obtain ⟨h1, h2⟩ := Prod.mk.injEq .. ▸ Except.ok.inj h
        subst h1
        obtain ⟨hiB, -⟩ := token_ok_iff.mp heqC
        have sB : iB <:+ iA := manyLoop_suffix parse_module_stmt_suffix heqB
        have sA : iA <:+ ts := manyLoop_suffix newline_token_suffix heqA
        refine List.IsSuffix.trans ?_ (List.IsSuffix.trans sB sA)
        rw [hiB]
        exact List.suffix_cons emt _

theorem parse_file_error_input {ts : TokenSlice} {e : ParseError} :
    parse_file ts = .error e → e.input <:+ ts := by
  intro h
  unfold parse_file many0 at h
  split at h
  next e1 heq =>
    cases Except.error.inj h
    exact manyLoop_error_input newline_token_suffix heq
  next iA osA heqA =>
    have sA : iA <:+ ts := manyLoop_suffix newline_token_suffix heqA
    split at h
    next e1 heq =>
      cases Except.error.inj h
      exact (manyLoop_error_input parse_module_stmt_suffix heq).trans sA
    next iB osB heqB =>
      have sB : iB <:+ ts :=
        (manyLoop_suffix parse_module_stmt_suffix heqB).trans sA
      split at h
      next e1 heq =>
        cases Except.error.inj h
        rw [token_error_input heq]
        exact sB
      next iC emt heqC => exact absurd h (by simp)

theorem parse_module_stmt_fields_nonempty :
    ∀ j j' o, parse_module_stmt j = .ok (j', o) → o.fields ≠ [] := by
  intro j j' o h
  rw [parse_module_stmt_eq] at h
  obtain ⟨ev, n, c, nl, ind, mid, ded, fs, -, -, -, -, -, -, -, -, -, -, hfne, rfl⟩ :=
    parse_event_def_ok_iff.mp h
  simpa [ModuleStmt.fields] using hfne

/-- Every statement in a module produced by `parse_file` has a non-empty
field list. -/
theorem parse_file_fields_nonempty {ts i : TokenSlice} {m : Module}
    (h : parse_file ts = .ok (i, m)) :
    ∀ stmt ∈ m.body, stmt.fields ≠ [] := by
  unfold parse_file many0 at h
  split at h
  next e heq => exact absurd h (by simp)
  next iA osA heqA =>
    split at h
    next e heq => exact absurd h (by simp)
    next iB osB heqB =>
      split at h
      next e heq => exact absurd h (by simp)
      next iC emt heqC =>
        obtain ⟨h1, h2⟩ := Prod.mk.injEq .. ▸ Except.ok.inj h
        subst h2
        exact manyLoop_forall parse_module_stmt_fields_nonempty heqB

/-- Success of `parse_file` is insensitive to what follows the consumed
ENDMARKER: if `parse_file` consumes `p` and then the ENDMARKER, any suffix
after the ENDMARKER is returned unconsumed with the same module. -/
theorem parse_file_extend {p s : TokenSlice} {em : TokenInfo} {m : Module}
    (hem : em.typ = .ENDMARKER)
    (h : parse_file (p ++ [em]) = .ok ([], m)) :
    parse_file (p ++ em :: s) = .ok (s, m) := by
  unfold parse_file many0 at h
  split at h
  next e heq => exact absurd h (by simp)
  next iA osA heqA =>
    split at h
    next e heq => exact absurd h (by simp)
    next iB osB heqB =>
      split at h
      next e heq => exact absurd h (by simp)
      next iC emt heqC =>
        obtain ⟨h1, h2⟩ := Prod.mk.injEq .. ▸ Except.ok.inj h
        subst h1
        subst h2
        obtain ⟨hiB, hemt⟩ := token_ok_iff.mp heqC
        obtain ⟨hdec, hallnl, hstop⟩ := manyLoop_newlines_sound heqA
        have hsufB : iB <:+ iA := manyLoop_suffix parse_module_stmt_suffix heqB
        have hsufA : iA <:+ p ++ [em] := manyLoop_suffix newline_token_suffix heqA
        have hneA : iA ≠ [] := by
          intro he
          rw [he, hiB] at hsufB
          obtain ⟨t2, ht2⟩ := hsufB
          simp at ht2
        obtain ⟨qA, rfl, -⟩ := suffix_of_append_singleton hsufA hneA
        have hneB : iB ≠ [] := by rw [hiB]; simp
        obtain ⟨qB, hiBeq, -⟩ := suffix_of_append_singleton hsufB hneB
        rw [hiB] at hiBeq
        have hqBnil : qB = [] := by
          have := congrArg List.length hiBeq
          simp only [List.length_cons, List.length_nil, List.length_append] at this
          exact List.eq_nil_of_length_eq_zero (by omega)
        rw [hqBnil, List.nil_append] at hiBeq
        obtain ⟨hemem, -⟩ := List.cons.injEq .. ▸ hiBeq
        -- hemem : emt = em
        rw [hiB, hemem] at heqB
        -- heqB : manyLoop ((qA ++ [em]).length + 1) .Many0 parse_module_stmt
        --          (qA ++ [em]) = .ok ([em], osB)
        have hp_eq : p = osA ++ qA := by
          have hkey : p ++ [em] = (osA ++ qA) ++ [em] := by
            rw [hdec]
            simp
          exact List.append_cancel_right hkey
        have hstop' : (qA ++ em :: s = []) ∨
            ∃ h0 t0, qA ++ em :: s = h0 :: t0 ∧ h0.typ ≠ .NEWLINE := by
          rcases hstop with hnil | ⟨h0, t0, heq0, hh0⟩
          · exfalso
            have := congrArg List.length hnil
            simp at this
          · cases qA with
            | nil =>
              simp only [List.nil_append] at heq0 ⊢
              obtain ⟨he, -⟩ := List.cons.injEq .. ▸ heq0
              refine Or.inr ⟨em, s, rfl, ?_⟩
              rw [he]
              exact hh0
            | cons x xs =>
              simp only [List.cons_append] at heq0 ⊢
              obtain ⟨he, -⟩ := List.cons.injEq .. ▸ heq0
              refine Or.inr ⟨x, xs ++ em :: s, rfl, ?_⟩
              rw [he]
              exact hh0
        have H1 : manyLoop ((p ++ em :: s).length + 1) .Many0 newline_token
            (p ++ em :: s) = .ok (qA ++ em :: s, osA) := by
          rw [show p ++ em :: s = osA ++ (qA ++ em :: s) from by rw [hp_eq]; simp]
          refine manyLoop_newlines hallnl hstop' ?_
          simp only [List.length_append, List.length_cons]
          omega
        have hfuel1 : (qA ++ [em]).length < (qA ++ [em]).length + 1 := by omega
        have hfuel2 : (qA ++ [em]).length < (qA ++ em :: s).length + 1 := by
          simp only [List.length_append, List.length_cons, List.length_nil]
          omega
        have heqB' : manyLoop ((qA ++ em :: s).length + 1) .Many0
            parse_module_stmt (qA ++ [em]) = .ok ([em], osB) := by
          rw [manyLoop_fuel_irrel parse_module_stmt_consumes hfuel2 hfuel1]
          exact heqB
        have H2 : manyLoop ((qA ++ em :: s).length + 1) .Many0
            parse_module_stmt (qA ++ em :: s) = .ok (em :: s, osB) :=
          manyLoop_stmts_extend hem heqB' s
        have H3 : endmarker_token (em :: s) = .ok (s, em) :=
          token_ok_iff.mpr ⟨rfl, hem⟩
        simp only [parse_file, many0, H1, H2, H3]

theorem parse_token_filter_blank {ws : List TokenInfo} {em : TokenInfo}
    (hws : ∀ t ∈ ws, t.typ = .NL ∨ t.typ = .COMMENT)
    (hem : em.typ = .ENDMARKER) :
    parse_token_filter (ws ++ [em]) = [em] := by
  unfold parse_token_filter
  rw [List.filter_append]
  have h1 : List.filter
      (fun t => !(t.typ == TokenType.NL) && !(t.typ == TokenType.COMMENT))
      ws = [] := by
    rw [List.filter_eq_nil_iff]
    intro a ha
    rcases hws a ha with h | h <;> simp [h]
  have h2 : List.filter
      (fun t => !(t.typ == TokenType.NL) && !(t.typ == TokenType.COMMENT))
      [em] = [em] := by
    simp only [List.filter, hem]
    rfl
  rw [h1, h2, List.nil_append]

/-! ## Claim theorems -/

/-- C1: `parse_event_def` succeeds on a token stream exactly when it begins
with a NAME token whose literal is `"event"`, then a NAME token (the event's
name), then an OP token `":"`, then a NEWLINE, then an INDENT, then one or
more event-field blocks, then a DEDENT; on success it returns an `EventDef`
whose name is the name token's literal and whose fields are the parsed fields
in order, with the stream advanced past the dedent; it fails if any step
fails. -/
theorem claim_C1 (ts i : TokenSlice) (stmt : ModuleStmt) :
    parse_event_def ts = .ok (i, stmt) ↔
      ∃ ev n c nl ind mid ded fs,
        ts = ev :: n :: c :: nl :: ind :: mid ∧
        ev.typ = .NAME ∧ ev.string = "event" ∧ n.typ = .NAME ∧
        c.typ = .OP ∧ c.string = ":" ∧ nl.typ = .NEWLINE ∧ ind.typ = .INDENT ∧
        ded.typ = .DEDENT ∧ FieldBlocks mid fs (ded :: i) ∧ fs ≠ [] ∧
        stmt = .EventDef n.string fs :=
  parse_event_def_ok_iff

theorem claim_C1_witness :
    parse_event_def demoStream =
      .ok ([tkEndmarker], .EventDef "Greet" [{ name := "x", typ := "u8" }]) :=
  (claim_C1 demoStream [tkEndmarker]
      (.EventDef "Greet" [{ name := "x", typ := "u8" }])).mpr
    ⟨tkEvent, tkGreet, tkColon, tkNewline, tkIndent,
      [tkX, tkColon, tkU8, tkNewline, tkDedent, tkEndmarker], tkDedent,
      [{ name := "x", typ := "u8" }], rfl, rfl, rfl, rfl, rfl, rfl, rfl, rfl,
      rfl,
      FieldBlocks.cons ⟨rfl, rfl, rfl, rfl, rfl⟩
        (FieldBlocks.nil [tkDedent, tkEndmarker]),
      List.cons_ne_nil _ _, rfl⟩

/-- C2 (counterexample): contrary to the claim, `parse_file` applied to the
literally empty token stream does not succeed: it fails with an end-of-input
error, because the ENDMARKER token is required. -/
theorem claim_C2_counterexample :
    parse_file ([] : TokenSlice) = .error ⟨[], .Eof⟩ :=
  parse_file_empty

/-- C2 (amended): `parse_file` applied to the stream a blank-line-only source
yields after filtering — NL/COMMENT tokens followed by a single ENDMARKER,
which filter to just the ENDMARKER — succeeds with `Module { body := [] }`;
likewise on the bare `[ENDMARKER]` stream; but on the literally empty token
stream it fails with an end-of-input error. -/
theorem claim_C2 (ws : List TokenInfo) (em : TokenInfo)
    (hws : ∀ t ∈ ws, t.typ = .NL ∨ t.typ = .COMMENT)
    (hem : em.typ = .ENDMARKER) :
    parse_file (parse_token_filter (ws ++ [em])) = .ok ([], { body := [] }) ∧
    parse_file [em] = .ok ([], { body := [] }) ∧
    parse_file ([] : TokenSlice) = .error ⟨[], .Eof⟩ := by
  refine ⟨?_, parse_file_single_endmarker hem, parse_file_empty⟩
  rw [parse_token_filter_blank hws hem]
  exact parse_file_single_endmarker hem

theorem claim_C2_witness :
    parse_file (parse_token_filter ([tkNL, tkComment] ++ [tkEndmarker])) =
        .ok ([], { body := [] }) ∧
    parse_file [tkEndmarker] = .ok ([], { body := [] }) ∧
    parse_file ([] : TokenSlice) = .error ⟨[], .Eof⟩ :=
  claim_C2 [tkNL, tkComment] tkEndmarker
    (by intro t ht
        simp only [List.mem_cons, List.not_mem_nil, or_false] at ht
        rcases ht with rfl | rfl
        · exact Or.inl rfl
        · exact Or.inr rfl)
    rfl

/-- C3: every `EventDef` produced by `parse_event_def` (and hence every one
in a `Module` returned by `parse_file`) has a non-empty field list; and on a
stream where the INDENT is immediately followed by a DEDENT, `parse_event_def`
fails, never producing an `EventDef` with empty fields. -/
theorem claim_C3 :
    (∀ ts i (name : String) (fields : List EventField),
      parse_event_def ts = .ok (i, .EventDef name fields) → fields ≠ []) ∧
    (∀ ts i (m : Module), parse_file ts = .ok (i, m) →
      ∀ stmt ∈ m.body, stmt.fields ≠ []) ∧
    (∀ ev n c nl ind ded (rest : TokenSlice),
      ev.typ = .NAME → ev.string = "event" → n.typ = .NAME → c.typ = .OP →
      c.string = ":" → nl.typ = .NEWLINE → ind.typ = .INDENT →
      ded.typ = .DEDENT →
      ∃ e, parse_event_def (ev :: n :: c :: nl :: ind :: ded :: rest) =
        .error e) := by
  refine ⟨fun ts i name fields h => parse_event_def_fields_nonempty h,
    fun ts i m h => parse_file_fields_nonempty h, ?_⟩
  intro ev n c nl ind ded rest hevt hevs hn hct hcs hnl hind hded
  have h1 : name_string "event" (ev :: n :: c :: nl :: ind :: ded :: rest) =
      .ok (n :: c :: nl :: ind :: ded :: rest, ev) :=
    name_string_ok_iff.mpr ⟨rfl, hevt, hevs⟩
  have h2 : name_token (n :: c :: nl :: ind :: ded :: rest) =
      .ok (c :: nl :: ind :: ded :: rest, n) := token_ok_iff.mpr ⟨rfl, hn⟩
  have h3 : op_string ":" (c :: nl :: ind :: ded :: rest) =
      .ok (nl :: ind :: ded :: rest, c) := op_string_ok_iff.mpr ⟨rfl, hct, hcs⟩
  have h4 : newline_token (nl :: ind :: ded :: rest) =
      .ok (ind :: ded :: rest, nl) := token_ok_iff.mpr ⟨rfl, hnl⟩
  have h5 : indent_token (ind :: ded :: rest) = .ok (ded :: rest, ind) :=
    token_ok_iff.mpr ⟨rfl, hind⟩
  have herr : parse_event_field (ded :: rest) = .error ⟨ded :: rest, .Verify⟩ :=
    parse_event_field_error_head (by rw [hded]; simp)
  have h6 : many1 parse_event_field (ded :: rest) =
      .error ⟨ded :: rest, .Verify⟩ := by
    simp only [many1, herr]
  refine ⟨⟨ded :: rest, .Verify⟩, ?_⟩
  simp only [parse_event_def, h1, h2, h3, h4, h5, h6]

theorem claim_C3_witness :
    [{ name := "x", typ := "u8" }] ≠ ([] : List EventField) ∧
    ∃ e, parse_event_def
      [tkEvent, tkGreet, tkColon, tkNewline, tkIndent, tkDedent, tkEndmarker] =
        .error e :=
  ⟨claim_C3.1 demoStream [tkEndmarker] "Greet" [{ name := "x", typ := "u8" }]
      (by decide),
    claim_C3.2.2 tkEvent tkGreet tkColon tkNewline tkIndent tkDedent
      [tkEndmarker] rfl rfl rfl rfl rfl rfl rfl rfl⟩

/-- C4: `parse_event_field` succeeds on a token stream exactly when it begins
with a NAME token, an OP token `":"`, a NAME token, and a NEWLINE token; on
success it returns an `EventField` whose name is the first NAME literal and
whose type is the second NAME literal stored as raw text, with the stream
advanced past the newline; it fails if any of the four pieces is missing. -/
theorem claim_C4 (ts i : TokenSlice) (f : EventField) :
    parse_event_field ts = .ok (i, f) ↔
      ∃ a c b nl, ts = a :: c :: b :: nl :: i ∧ a.typ = .NAME ∧ c.typ = .OP ∧
        c.string = ":" ∧ b.typ = .NAME ∧ nl.typ = .NEWLINE ∧
        f = { name := a.string, typ := b.string } := by
  rw [parse_event_field_ok_iff]
  constructor
  · rintro ⟨a, c, b, nl, rfl, ⟨h1, h2, h3, h4, h5⟩, rfl⟩
    exact ⟨a, c, b, nl, rfl, h1, h2, h3, h4, h5, rfl⟩
  · rintro ⟨a, c, b, nl, rfl, h1, h2, h3, h4, h5, rfl⟩
    exact ⟨a, c, b, nl, rfl, ⟨h1, h2, h3, h4, h5⟩, rfl⟩

theorem claim_C4_witness :
    parse_event_field [tkX, tkColon, tkU8, tkNewline, tkDedent] =
      .ok ([tkDedent], { name := "x", typ := "u8" }) :=
  (claim_C4 [tkX, tkColon, tkU8, tkNewline, tkDedent] [tkDedent]
      { name := "x", typ := "u8" }).mpr
    ⟨tkX, tkColon, tkU8, tkNewline, rfl, rfl, rfl, rfl, rfl, rfl, rfl⟩

/-- C5: parsing always terminates with a success or a failure; every
successful grammar-rule application strictly advances the stream, so the
repetition loops (`many0` of newlines, `many0` of module statements, `many1`
of event fields) reach their fixed fuel-free behavior: any fuel beyond the
stream length gives the same result, i.e. the loops cannot run forever. -/
theorem claim_C5 :
    (∀ ts i t, one_token ts = .ok (i, t) → i.length < ts.length) ∧
    (∀ typ ts i t, token typ ts = .ok (i, t) → i.length < ts.length) ∧
    (∀ ts i f, parse_event_field ts = .ok (i, f) → i.length < ts.length) ∧
    (∀ ts i o, parse_event_def ts = .ok (i, o) → i.length < ts.length) ∧
    (∀ ts i o, parse_module_stmt ts = .ok (i, o) → i.length < ts.length) ∧
    (∀ ts i m, parse_file ts = .ok (i, m) → i.length < ts.length) ∧
    (∀ ts, (∃ r, parse_file ts = .ok r) ∨ (∃ e, parse_file ts = .error e)) ∧
    (∀ (fuel : Nat) (ts : TokenSlice), ts.length < fuel →
      manyLoop fuel .Many0 newline_token ts = many0 newline_token ts) ∧
    (∀ (fuel : Nat) (ts : TokenSlice), ts.length < fuel →
      manyLoop fuel .Many0 parse_module_stmt ts = many0 parse_module_stmt ts) ∧
    (∀ (fuel : Nat) (ts : TokenSlice), ts.length < fuel →
      manyLoop fuel .Many1 parse_event_field ts =
        manyLoop (ts.length + 1) .Many1 parse_event_field ts) := by
  refine ⟨?_, ?_, parse_event_field_consumes, parse_event_def_consumes,
    parse_module_stmt_consumes, parse_file_consumes, ?_, ?_, ?_, ?_⟩
  · intro ts i t h
    rw [one_token_ok_iff.mp h]
    simp only [List.length_cons]
    omega
  · intro typ ts i t h
    obtain ⟨rfl, -⟩ := token_ok_iff.mp h
    simp only [List.length_cons]
    omega
  · intro ts
    cases h : parse_file ts with
    | error e => exact Or.inr ⟨e, rfl⟩
    | ok r => exact Or.inl ⟨r, rfl⟩
  · intro fuel ts h
    unfold many0
    exact manyLoop_fuel_irrel newline_token_consumes h (by omega)
  · intro fuel ts h
    unfold many0
    exact manyLoop_fuel_irrel parse_module_stmt_consumes h (by omega)
  · intro fuel ts h
    exact manyLoop_fuel_irrel parse_event_field_consumes h (by omega)

theorem claim_C5_witness : ([] : TokenSlice).length < [tkEndmarker].length :=
  claim_C5.1 [tkEndmarker] [] tkEndmarker rfl

/-- C6: every rule is atomic on failure: a failing rule returns only an error
value (never an ok result), the primitive matchers report the failure at
exactly the input they received, and the compound rules report it at a suffix
of that input — there is no partial consumption and no partially constructed
node, so a caller can retry an alternative from the original input. -/
theorem claim_C6 :
    (∀ ts e, one_token ts = .error e →
      e.input = ts ∧ ∀ r, one_token ts ≠ .ok r) ∧
    (∀ typ ts e, token typ ts = .error e →
      e.input = ts ∧ ∀ r, token typ ts ≠ .ok r) ∧
    (∀ s ts e, name_string s ts = .error e → e.input = ts) ∧
    (∀ s ts e, op_string s ts = .error e → e.input = ts) ∧
    (∀ ts e, parse_event_field ts = .error e →
      e.input <:+ ts ∧ ∀ r, parse_event_field ts ≠ .ok r) ∧
    (∀ ts e, parse_event_def ts = .error e →
      e.input <:+ ts ∧ ∀ r, parse_event_def ts ≠ .ok r) ∧
    (∀ ts e, parse_module_stmt ts = .error e → e.input <:+ ts) ∧
    (∀ ts e, parse_file ts = .error e →
      e.input <:+ ts ∧ ∀ r, parse_file ts ≠ .ok r) := by
  refine ⟨?_, ?_, ?_, ?_, ?_, ?_, ?_, ?_⟩
  · intro ts e h
    obtain ⟨rfl, rfl⟩ := one_token_error_iff.mp h
    exact ⟨rfl, fun r hr => by rw [h] at hr; exact absurd hr (by simp)⟩
  · intro typ ts e h
    exact ⟨token_error_input h, fun r hr => by rw [h] at hr; exact absurd hr (by simp)⟩
  · intro s ts e h
    exact name_string_error_input h
  · intro s ts e h
    exact op_string_error_input h
  · intro ts e h
    exact ⟨parse_event_field_error_input h,
      fun r hr => by rw [h] at hr; exact absurd hr (by simp)⟩
  · intro ts e h
    exact ⟨parse_event_def_error_input h,
      fun r hr => by rw [h] at hr; exact absurd hr (by simp)⟩
  · intro ts e h
    exact parse_module_stmt_error_input h
  · intro ts e h
    exact ⟨parse_file_error_input h,
      fun r hr => by rw [h] at hr; exact absurd hr (by simp)⟩

theorem claim_C6_witness :
    (ParseError.mk [tkDedent] .Verify).input = [tkDedent] :=
  claim_C6.2.2.1 "event" [tkDedent] ⟨[tkDedent], .Verify⟩ (by decide)

/-- C7: `one_token` fails if and only if the input slice is empty, reporting
an end-of-input error in that case; on any non-empty slice it succeeds,
returning the first token and the slice advanced past exactly that one token,
for every token. -/
theorem claim_C7 (ts : TokenSlice) :
    (∀ e, one_token ts = .error e ↔ ts = [] ∧ e = ⟨[], .Eof⟩) ∧
    (∀ i t, one_token ts = .ok (i, t) ↔ ts = t :: i) :=
  ⟨fun e => one_token_error_iff, fun i t => one_token_ok_iff⟩

theorem claim_C7_witness : one_token [tkX] = .ok ([], tkX) :=
  ((claim_C7 [tkX]).2 [] tkX).mpr rfl

/-- C8: `name_string s` and `op_string s` succeed on a token stream iff its
first token has type NAME (resp. OP) and its literal equals `s` exactly, with
no normalization; on success they consume exactly that one token and return
it. -/
theorem claim_C8 (s : String) (ts i : TokenSlice) (t : TokenInfo) :
    (name_string s ts = .ok (i, t) ↔
      ts = t :: i ∧ t.typ = .NAME ∧ t.string = s) ∧
    (op_string s ts = .ok (i, t) ↔
      ts = t :: i ∧ t.typ = .OP ∧ t.string = s) :=
  ⟨name_string_ok_iff, op_string_ok_iff⟩

theorem claim_C8_witness : name_string "event" [tkEvent] = .ok ([], tkEvent) :=
  (claim_C8 "event" [tkEvent] [] tkEvent).1.mpr ⟨rfl, rfl, rfl⟩

/-- C9: `get_parse_tokens`, on any successfully tokenized stream, returns
exactly that stream with every NL and every COMMENT token removed and all
other tokens kept in their original order, so the grammar never sees an NL or
COMMENT token. -/
theorem claim_C9 (ts out : List TokenInfo)
    (h : get_parse_tokens (.ok ts) = .ok out) :
    out = ts.filter (fun t => decide (t.typ ≠ .NL ∧ t.typ ≠ .COMMENT)) ∧
    out.Sublist ts ∧
    (∀ t ∈ out, t.typ ≠ .NL ∧ t.typ ≠ .COMMENT) ∧
    (∀ t ∈ ts, t.typ ≠ .NL → t.typ ≠ .COMMENT → t ∈ out) := by
  have hout : out = parse_token_filter ts := (Except.ok.inj h).symm
  subst hout
  have hpred : ∀ t : TokenInfo,
      (!(t.typ == TokenType.NL) && !(t.typ == TokenType.COMMENT)) =
        decide (t.typ ≠ .NL ∧ t.typ ≠ .COMMENT) := by
    intro t
    by_cases h1 : t.typ = .NL <;> by_cases h2 : t.typ = .COMMENT <;>
      simp [h1, h2]
  refine ⟨?_, ?_, ?_, ?_⟩
  · unfold parse_token_filter
    exact List.filter_congr (fun t _ => hpred t)
  · exact List.filter_sublist ts
  · intro t ht
    unfold parse_token_filter at ht
    have := (List.mem_filter.mp ht).2
    constructor
    · intro hc; rw [hc] at this; simp at this
    · intro hc; rw [hc] at this; simp at this
  · intro t ht h1 h2
    unfold parse_token_filter
    refine List.mem_filter.mpr ⟨ht, ?_⟩
    simp [h1, h2]

theorem claim_C9_witness :
    [tkEvent, tkEndmarker] =
      List.filter (fun t => decide (t.typ ≠ .NL ∧ t.typ ≠ .COMMENT))
        [tkNL, tkEvent, tkComment, tkEndmarker] :=
  (claim_C9 [tkNL, tkEvent, tkComment, tkEndmarker] [tkEvent, tkEndmarker]
    rfl).1

/-- C10: `parse_file` does not require the ENDMARKER to be last: if it
consumes a prefix `p` and then the ENDMARKER, then on `p ++ ENDMARKER :: s`
it succeeds and returns the suffix `s` unconsumed, even when `s` is
non-empty — success of `parse_file` does not imply the stream was fully
consumed. -/
theorem claim_C10 (p s : TokenSlice) (em : TokenInfo) (m : Module)
    (hem : em.typ = .ENDMARKER)
    (h : parse_file (p ++ [em]) = .ok ([], m)) :
    parse_file (p ++ em :: s) = .ok (s, m) :=
  parse_file_extend hem h

theorem claim_C10_witness :
    parse_file (([] : TokenSlice) ++ tkEndmarker :: [tkX]) =
      .ok ([tkX], { body := [] }) :=
  claim_C10 [] [tkX] tkEndmarker { body := [] } rfl (by decide)

end Fe
